import Mathlib

/-! Verification of the PyOP2 loop optimiser (`pyop2/ir/ast_optimiser.py`). -/

/-- Rank items of a Symbol's subscript: iteration variables or numeric extents. -/
inductive RankItem where
  | var (v : String)
  | num (n : Nat)
  deriving DecidableEq, Repr

/-- Expression trees. Modelled from the spec: the IR node model lives in
`pyop2/ir/ast_base.py`, absent from the sources; a Symbol carries its name,
subscript rank and its subscript-derived loop-dependence set, a Par node is a
transparent wrapper, and every other expression node is binary. -/
inductive Expr where
  | sym (symbol : String) (rank : List RankItem) (loop_dep : List String)
  | par (e : Expr)
  | binop (op : String) (l r : Expr)
  deriving DecidableEq, Repr

/-- Statement and loop nodes. Modelled from the spec: Block holds an ordered
list of children, For carries its control (iteration variable, extent) and its
children, Decl introduces a typed Symbol, Assign/Incr write a Symbol. -/
inductive Node where
  | block (cs : List Node)
  | forN (it_var : String) (size : Nat) (cs : List Node)
  | declN (typ : String) (sym : Expr)
  | assignN (lhs : Expr) (rhs : Expr)
  | incrN (lhs : Expr) (rhs : Expr)
  | other (tag : String)

/-- Errors the embedded Python code can raise at runtime, plus the
`MalformedNestError` named by the specification (never raised by the code). -/
inductive Err where
  | indexError
  | nameError
  | attributeError
  | malformedNest
  deriving DecidableEq, Repr

/-- `_explore_perfect_nest`: on a Block, record it and descend into its first
child; on a For, append it to `fors` and descend into its first child; on any
other node return `fors`.  Taking `children[0]` of a childless Block or For is
an IndexError. -/
def exploreNest : Node → List Node → Option Node → Except Err (List Node × Option Node)
  | .block cs, fors, _ =>
    match cs with
    | [] => .error .indexError
    | c :: _ => exploreNest c fors (some (.block cs))
  | .forN v n cs, fors, blk =>
    match cs with
    | [] => .error .indexError
    | c :: _ => exploreNest c (fors ++ [.forN v n cs]) blk
  | _, fors, blk => .ok (fors, blk)

/-- Constructing a `LoopOptimiser` runs `_explore_perfect_nest` on the nest.
The `fors` accumulator is Python's mutable default argument: a single list
shared by every construction in the process, so `shared` is the list's content
before the call and the returned list is its content after. -/
def constructOptimiser (shared : List Node) (t : Node) : Except Err (List Node × Option Node) :=
  exploreNest t shared none

/-- `True` exactly on Symbol leaves (`isinstance(node, Symbol)`). -/
def isSymB : Expr → Bool
  | .sym _ _ _ => true
  | _ => false

/-- An entry of the dependence-grouping map `expr_dep`: a dependence-set key
paired with the recorded sub-expression, in insertion order. -/
abbrev DepEntry := List String × Expr

/-- `extract_const` of `licm`: returns the pair (dependence set, invariant
flag) for the node and threads the `expr_dep` accumulator, to which the else
branch appends invariant non-Symbol children keyed by their own dependence
set. -/
def extract_const (written : List String) : Expr → List DepEntry → (List String × Bool) × List DepEntry
  | .sym name _ dep, acc => ((dep, !(written.contains name)), acc)
  | .par e, acc => extract_const written e acc
  | .binop _ l r, acc =>
    let p1 := extract_const written l acc
    let p2 := extract_const written r p1.2
    let depL := p1.1.1
    let invL := p1.1.2
    let depR := p2.1.1
    let invR := p2.1.2
    if depL = depR then ((depL, true), p2.2)
    else if depL = [] then ((depR, true), p2.2)
    else if depR = [] then ((depL, true), p2.2)
    else
      let a3 := if invL && !(isSymB l) then p2.2 ++ [(depL, l)] else p2.2
      let a4 := if invR && !(isSymB r) then a3 ++ [(depR, r)] else a3
      (([], false), a4)

/-- The (dependence set, invariant flag) pair `extract_const` reports for a
node. -/
def ecRes (written : List String) (e : Expr) : List String × Bool :=
  (extract_const written e []).1

/-- The entries `extract_const` appends to the grouping map while analysing a
node. -/
def ecNew (written : List String) (e : Expr) : List DepEntry :=
  (extract_const written e []).2

/-- The analyzer reports `e` invariant with respect to a loop with iteration
variable `v` when its invariant flag is true and its reported dependence set
excludes `v`. -/
def reportsInvariantWrt (written : List String) (e : Expr) (v : String) : Prop :=
  (ecRes written e).2 = true ∧ v ∉ (ecRes written e).1

instance (w : List String) (e : Expr) (v : String) : Decidable (reportsInvariantWrt w e v) := by
  unfold reportsInvariantWrt; infer_instance

/-- The set of symbol names occurring in an expression (the claim-side notion
of the operands involved). -/
def exprSymbols : Expr → List String
  | .sym name _ _ => [name]
  | .par e => exprSymbols e
  | .binop _ l r => exprSymbols l ++ exprSymbols r

/-- The claim-side dependence set of an expression: the union of the
loop-dependence sets of the symbols occurring in it (spec: the set of
enclosing loop iteration variables an expression's value can vary with). -/
def exprDeps : Expr → List String
  | .sym _ _ dep => dep
  | .par e => exprDeps e
  | .binop _ l r => exprDeps l ++ exprDeps r

/-- `For.it_var()`. Modelled from the spec: a For carries its iteration
variable; the accessor lives in the absent `ast_base`. -/
def itVar : Node → String
  | .forN v _ _ => v
  | _ => ""

/-- `For.size()`: the loop's statically known trip count. Modelled from the
spec: the accessor lives in the absent `ast_base`. -/
def sizeN : Node → Nat
  | .forN _ n _ => n
  | _ => 0

/-- `Symbol(name, rank)`. Modelled from the spec: the constructor of the
absent `ast_base` derives the loop-dependence set from the subscript's
iteration variables. -/
def mkSym (name : String) (rank : List RankItem) : Expr :=
  .sym name rank (rank.filterMap (fun it => match it with | .var v => some v | .num _ => none))

/-- `node.symbol`: reading the `symbol` attribute of a node that is not a
Symbol raises an AttributeError. -/
def symNameOf : Expr → Except Err String
  | .sym name _ _ => .ok name
  | _ => .error .attributeError

/-- Lines 85-88 of `licm`: the names of the write targets of the Assign and
Incr statements of the block, in order. -/
def writtenVars : List Node → Except Err (List String)
  | [] => .ok []
  | s :: ss =>
    match s with
    | .assignN lhs _ => do
      let n ← symNameOf lhs
      let rest ← writtenVars ss
      pure (n :: rest)
    | .incrN lhs _ => do
      let n ← symNameOf lhs
      let rest ← writtenVars ss
      pure (n :: rest)
    | _ => writtenVars ss

/-- `s.sym.symbol` of a Decl node built by `licm`: the declared Symbol's
name. -/
def declSymName : Node → String
  | .declN _ (.sym n _ _) => n
  | _ => ""

/-- `[l for l in fors if p l][0]`: the first matching element, an IndexError
when none matches. -/
def findFirst (p : Node → Bool) : List Node → Except Err Node
  | [] => .error .indexError
  | x :: xs => if p x then .ok x else findFirst p xs

/-- Lines 115-120 of `licm`: scan the nest outermost to innermost, keeping as
`pre_loop` the last loop seen whose variable is neither `fast_for`'s nor
`n_dep_for`'s, and stop at the first loop whose variable is one of the two. -/
def preScan (fastV ndepV : String) : List Node → Option Node → Option Node
  | [], pre => pre
  | l :: ls, pre =>
    if itVar l ≠ fastV ∧ itVar l ≠ ndepV then preScan fastV ndepV ls (some l)
    else pre

/-- Lines 104-141 of `licm`, for one (dependence set, expression list) group:
choose the wrapping loops, declare the temporaries, build the inner assignment
block, wrap it with the chosen loops innermost to outermost and return the
resulting `inv_block` (declarations followed by the wrapped loop). -/
def buildHoist (fors : List Node) (dep : List String) (exprs : List Expr) (typ : String) :
    Except Err Node := do
  let dlast ← match dep.getLast? with
    | some v => Except.ok v
    | none => Except.error Err.indexError
  let fast ← findFirst (fun l => itVar l == dlast) fors
  let ndep ← findFirst (fun l => !(dep.contains (itVar l))) fors
  let pre := preScan (itVar fast) (itVar ndep) fors none
  let wl := match pre with
    | some _ => [fast]
    | none => fors.filter (fun l => dep.contains (itVar l))
  let wlast ← match wl.getLast? with
    | some l => Except.ok l
    | none => Except.error Err.indexError
  let symRank := wl.map (fun l => RankItem.num (sizeN l))
  let syms := (List.range exprs.length).map
    (fun i => mkSym ("LI_" ++ itVar wlast ++ "_" ++ toString i) symRank)
  let varDecl := syms.map (fun s => Node.declN typ s)
  let forRank := wl.map (fun l => RankItem.var (itVar l))
  let forSym := varDecl.map (fun d => mkSym (declSymName d) forRank)
  let forAss := (forSym.zip exprs).map (fun p => Node.assignN p.1 p.2)
  let invFor := wl.foldr (fun l b => Node.forN (itVar l) (sizeN l) [b]) (Node.block forAss)
  pure (Node.block (varDecl ++ [invFor]))

/-- `defaultdict(list)` grouping of the `expr_dep` entries: per-key insertion
order of values, keys in first-insertion order. -/
def groupByKey (ps : List DepEntry) : List (List String × List Expr) :=
  ps.foldl (fun acc p =>
    if acc.any (fun q => q.1 = p.1) then
      acc.map (fun q => if q.1 = p.1 then (q.1, q.2 ++ [p.2]) else q)
    else acc ++ [(p.1, [p.2])]) []

/-- Lines 92-141 of `licm` for one statement: on an Assign or Incr, look up
the write target's type in `decl` — a name bound nowhere in the module, so a
NameError when no star-imported global supplies it — then run `extract_const`
on the right-hand side and build one `inv_block` per group of `expr_dep`.
Other statements contribute nothing. -/
def licmStmt (fors : List Node) (written : List String)
    (decl? : Option (String → List String)) (s : Node) : Except Err (List Node) :=
  match s with
  | .assignN lhs rhs => do
    let d ← match decl? with
      | none => Except.error Err.nameError
      | some d => Except.ok d
    let n ← symNameOf lhs
    let typ ← match d n with
      | [] => Except.error Err.indexError
      | t :: _ => Except.ok t
    let groups := groupByKey (ecNew written rhs)
    groups.mapM (fun g => buildHoist fors g.1 g.2 typ)
  | .incrN lhs rhs => do
    let d ← match decl? with
      | none => Except.error Err.nameError
      | some d => Except.ok d
    let n ← symNameOf lhs
    let typ ← match d n with
      | [] => Except.error Err.indexError
      | t :: _ => Except.ok t
    let groups := groupByKey (ecNew written rhs)
    groups.mapM (fun g => buildHoist fors g.1 g.2 typ)
  | _ => .ok []

/-- `licm`: compute the written variables, analyse each statement and build
the hoisted `inv_block`s.  The built blocks are only printed (line 141); the
nest is returned unchanged because `replace_const` is `pass` and the splice
step is only a comment, so the statement list in the result is the input
list. -/
def licm (fors : List Node) (stmts : List Node)
    (decl? : Option (String → List String)) : Except Err (List Node × List Node) := do
  let written ← writtenVars stmts
  let printed ← stmts.foldlM (fun acc s => do
    let ps ← licmStmt fors written decl? s
    pure (acc ++ ps)) ([] : List Node)
  pure (stmts, printed)

/-- `True` exactly on the Assign and Incr statements (`type(s) in [Assign,
Incr]`). -/
def isWriteB : Node → Bool
  | .assignN _ _ => true
  | .incrN _ _ => true
  | _ => false

/-- `True` exactly on Block and For nodes, the two kinds
`_explore_perfect_nest` descends into. -/
def isBlockOrFor : Node → Bool
  | .block _ => true
  | .forN _ _ _ => true
  | _ => false

/-- The chain of (iteration variable, extent) pairs of the single-child For
wrappers at the root of a tree. -/
def wrapChain : Node → List (String × Nat)
  | .forN v n (b :: _) => (v, n) :: wrapChain b
  | _ => []

/-- The body found under the chain of For wrappers at the root of a tree. -/
def chainInner : Node → Node
  | .forN _ _ (b :: _) => chainInner b
  | n => n

/-- The (type, Symbol) pairs of the Decl children of a Block, in order. -/
def blockDecls : Node → List (String × Expr)
  | .block cs => cs.filterMap (fun c => match c with | .declN t s => some (t, s) | _ => none)
  | _ => []

/-- The For-wrapping chain of the last child of a Block. -/
def blockLastWrap : Node → List (String × Nat)
  | .block cs =>
    match cs.getLast? with
    | some c => wrapChain c
    | none => []
  | _ => []

/-- The innermost body of the last child of a Block. -/
def blockLastInner : Node → Node
  | .block cs =>
    match cs.getLast? with
    | some c => chainInner c
    | none => .block []
  | n => n

/-- The worked example of the spec: `A[i][j] = (B[i]*C[i]) + D[j]` inside the
nest `i in [0,10) x j in [0,10)`, with `B`, `C`, `D` never written. -/
def exB : Expr := .sym "B" [.var "i"] ["i"]

def exC : Expr := .sym "C" [.var "i"] ["i"]

def exD : Expr := .sym "D" [.var "j"] ["j"]

def exA : Expr := .sym "A" [.var "i", .var "j"] ["i", "j"]

def exRhs : Expr := .binop "+" (.par (.binop "*" exB exC)) exD

def exStmt : Node := .assignN exA exRhs

def exJ : Node := .forN "j" 10 [.block [exStmt]]

def exI : Node := .forN "i" 10 [.block [exJ]]

def exFors : List Node := [exI, exJ]

/-- The external symbol table for the worked example: every name is declared
with type `double`. -/
def exDecl : String → List String := fun _ => ["double"]

/-- The `inv_block` that `licm` builds (and only prints) for the worked
example: the declaration of the temporary `LI_i_0`, ranked by the extent of
loop `i`, and the wrapping loop over `i` assigning the hoisted product. -/
def exInvBlock : Node :=
  .block [.declN "double" (.sym "LI_i_0" [.num 10] []),
          .forN "i" 10 [.block [.assignN (.sym "LI_i_0" [.var "i"] ["i"])
                                 (.par (.binop "*" exB exC))]]]

/-- The expression the analyzer records for hoisting in the worked example. -/
def exHoisted : Expr := .par (.binop "*" exB exC)

/-- The inputs of the C1 counterexample: the sum `A[i] + A[i]` with `A`
written in the block. -/
def c1Expr : Expr := .binop "+" (.sym "A" [.var "i"] ["i"]) (.sym "A" [.var "i"] ["i"])

/-- The C6 counterexample: a For node with two children, not a perfect
nest. -/
def c6Tree : Node := .forN "i" 10 [.block [.other "s1"], .block [.other "s2"]]

/-- Single-loop nests used to exhibit the shared `fors` default argument. -/
def c7Nest1 : Node := .forN "i" 10 [.block [.other "s1"]]

def c7Nest2 : Node := .forN "j" 5 [.block [.other "s2"]]

/-- Modelled from the spec: a loop of trip count `n` whose body `f` receives
the iteration index, starting at index `lo`.  The Peeler (spec 4.6) is named
only in the module header comment of `ast_optimiser.py` ("peeling"; "trip
count/bound adjustment is for auto-vectorisation") and is never implemented;
these definitions follow the spec's words. -/
def execLoop (f : Nat → α → α) (lo n : Nat) (s : α) : α :=
  (List.range n).foldl (fun st k => f (lo + k) st) s

/-- Modelled from the spec: peeling a loop of trip count `N` for vector width
`W` runs a main loop of trip count `N / W * W` and then, exactly when
`N % W ≠ 0`, a remainder loop of trip count `N % W` over the remaining
indices, with the same per-iteration body. -/
def execPeeled (f : Nat → α → α) (N W : Nat) (s : α) : α :=
  let main := execLoop f 0 (N / W * W) s
  if N % W ≠ 0 then execLoop f (N / W * W) (N % W) main else main

theorem extract_const_acc (written : List String) (e : Expr) (acc : List DepEntry) :
    extract_const written e acc = (ecRes written e, acc ++ ecNew written e) := by
  induction e generalizing acc with
  | sym name rank dep => simp [extract_const, ecRes, ecNew]
  | par e ih => simpa [extract_const, ecRes, ecNew] using ih acc
  | binop op l r ihl ihr =>
    have hrw : ∀ a : List DepEntry, extract_const written (.binop op l r) a =
        (let depL := (ecRes written l).1
         let invL := (ecRes written l).2
         let depR := (ecRes written r).1
         let invR := (ecRes written r).2
         let base := a ++ ecNew written l ++ ecNew written r
         if depL = depR then ((depL, true), base)
         else if depL = [] then ((depR, true), base)
         else if depR = [] then ((depL, true), base)
         else
           let a3 := if invL && !(isSymB l) then base ++ [(depL, l)] else base
           let a4 := if invR && !(isSymB r) then a3 ++ [(depR, r)] else a3
           (([], false), a4)) := by
      intro a
      simp only [extract_const, ihl, ihr]
    have hres : ecRes written (.binop op l r) = (extract_const written (.binop op l r) []).1 := rfl
    have hnew : ecNew written (.binop op l r) = (extract_const written (.binop op l r) []).2 := rfl
    rw [hres, hnew, hrw acc, hrw []]
    by_cases h1 : (ecRes written l).1 = (ecRes written r).1 <;>
      by_cases h2 : (ecRes written l).1 = [] <;>
        by_cases h3 : (ecRes written r).1 = [] <;>
          by_cases h4 : ((ecRes written l).2 && !(isSymB l)) = true <;>
            by_cases h5 : ((ecRes written r).2 && !(isSymB r)) = true <;>
              simp [h1, h2, h3, h4, h5, List.append_assoc]

theorem extract_const_binop (w : List String) (op : String) (l r : Expr) (a : List DepEntry) :
    extract_const w (.binop op l r) a =
      (let depL := (ecRes w l).1
       let invL := (ecRes w l).2
       let depR := (ecRes w r).1
       let invR := (ecRes w r).2
       let base := a ++ ecNew w l ++ ecNew w r
       if depL = depR then ((depL, true), base)
       else if depL = [] then ((depR, true), base)
       else if depR = [] then ((depL, true), base)
       else
         let a3 := if invL && !(isSymB l) then base ++ [(depL, l)] else base
         let a4 := if invR && !(isSymB r) then a3 ++ [(depR, r)] else a3
         (([], false), a4)) := by
  simp only [extract_const, extract_const_acc, List.append_assoc]

theorem ecRes_binop (w : List String) (op : String) (l r : Expr) :
    ecRes w (.binop op l r) =
      (if (ecRes w l).1 = (ecRes w r).1 then ((ecRes w l).1, true)
       else if (ecRes w l).1 = [] then ((ecRes w r).1, true)
       else if (ecRes w r).1 = [] then ((ecRes w l).1, true)
       else ([], false)) := by
  have h : ecRes w (.binop op l r) = (extract_const w (.binop op l r) []).1 := rfl
  rw [h, extract_const_binop]
  by_cases h1 : (ecRes w l).1 = (ecRes w r).1 <;>
    by_cases h2 : (ecRes w l).1 = [] <;>
      by_cases h3 : (ecRes w r).1 = [] <;>
        simp [h1, h2, h3]

theorem ecNew_binop (w : List String) (op : String) (l r : Expr) :
    ecNew w (.binop op l r) =
      ecNew w l ++ ecNew w r ++
      (if (ecRes w l).1 = (ecRes w r).1 ∨ (ecRes w l).1 = [] ∨ (ecRes w r).1 = [] then []
       else
         (if (ecRes w l).2 && !(isSymB l) then [((ecRes w l).1, l)] else []) ++
         (if (ecRes w r).2 && !(isSymB r) then [((ecRes w r).1, r)] else [])) := by
  have h : ecNew w (.binop op l r) = (extract_const w (.binop op l r) []).2 := rfl
  rw [h, extract_const_binop]
  by_cases h1 : (ecRes w l).1 = (ecRes w r).1 <;>
    by_cases h2 : (ecRes w l).1 = [] <;>
      by_cases h3 : (ecRes w r).1 = [] <;>
        by_cases h4 : ((ecRes w l).2 && !(isSymB l)) = true <;>
          by_cases h5 : ((ecRes w r).2 && !(isSymB r)) = true <;>
            simp [h1, h2, h3, h4, h5, List.append_assoc]

theorem ecNew_no_bare_symbol :
    ∀ (w : List String) (e : Expr) (p : DepEntry), p ∈ ecNew w e → isSymB p.2 = false := by
  intro w e
  induction e with
  | sym name rank dep =>
    intro p hp
    simp [ecNew, extract_const] at hp
  | par e ih =>
    intro p hp
    exact ih p hp
  | binop op l r ihl ihr =>
    intro p hp
    rw [ecNew_binop] at hp
    rcases List.mem_append.1 hp with hh | hh
    · rcases List.mem_append.1 hh with hh2 | hh2
      · exact ihl p hh2
      · exact ihr p hh2
    · split at hh
      · simp at hh
      · rcases List.mem_append.1 hh with h4 | h4
        · by_cases hc : ((ecRes w l).2 && !isSymB l) = true
          · rw [if_pos hc] at h4
            have hp2 : p = ((ecRes w l).1, l) := by simpa using h4
            have hns : isSymB l = false := by
              have hc2 := hc
              rw [Bool.and_eq_true] at hc2
              simpa using hc2.2
            simp [hp2, hns]
          · rw [if_neg hc] at h4
            simp at h4
        · by_cases hc : ((ecRes w r).2 && !isSymB r) = true
          · rw [if_pos hc] at h4
            have hp2 : p = ((ecRes w r).1, r) := by simpa using h4
            have hns : isSymB r = false := by
              have hc2 := hc
              rw [Bool.and_eq_true] at hc2
              simpa using hc2.2
            simp [hp2, hns]
          · rw [if_neg hc] at h4
            simp at h4

theorem ecNew_keys_ne_nil :
    ∀ (w : List String) (e : Expr) (p : DepEntry), p ∈ ecNew w e → p.1 ≠ [] := by
  intro w e
  induction e with
  | sym name rank dep =>
    intro p hp
    simp [ecNew, extract_const] at hp
  | par e ih =>
    intro p hp
    exact ih p hp
  | binop op l r ihl ihr =>
    intro p hp
    rw [ecNew_binop] at hp
    rcases List.mem_append.1 hp with hh | hh
    · rcases List.mem_append.1 hh with hh2 | hh2
      · exact ihl p hh2
      · exact ihr p hh2
    · split at hh
      · simp at hh
      · rename_i hcond
        push_neg at hcond
        rcases List.mem_append.1 hh with h4 | h4
        · split at h4
          · have hp2 : p = ((ecRes w l).1, l) := by simpa using h4
            simpa [hp2] using hcond.2.1
          · simp at h4
        · split at h4
          · have hp2 : p = ((ecRes w r).1, r) := by simpa using h4
            simpa [hp2] using hcond.2.2
          · simp at h4

/-- C1, counterexample: for the expression `A[i] + A[i]` with `A` in the
written set and the enclosing loop `j`, `extract_const` reports the
expression invariant with respect to `j` (both children share the dependence
set `(i,)`, so the invariant flag is recomputed as true without consulting
the written set), yet the symbol `A` occurs in the expression and is a write
target, so the claimed equivalence fails at this input. -/
theorem C1_counterexample :
    ¬ (reportsInvariantWrt ["A"] c1Expr "j" ↔
        ("j" ∉ exprDeps c1Expr ∧ ∀ s ∈ exprSymbols c1Expr, s ∉ ["A"])) := by
  decide

/-- C1, amended: for every Symbol leaf of a statement's right-hand tree and
every enclosing loop, `extract_const` reports the Symbol invariant with
respect to the loop if and only if the Symbol's loop-dependence set excludes
the loop's iteration variable and the Symbol does not appear as a write
target in the statement block. -/
theorem C1_symbol_invariance (w : List String) (name : String) (rank : List RankItem)
    (dep : List String) (v : String) :
    reportsInvariantWrt w (.sym name rank dep) v ↔ (v ∉ dep ∧ name ∉ w) := by
  constructor
  · intro h
    rcases h with ⟨hinv, hdep⟩
    refine ⟨hdep, ?_⟩
    have : (!(w.contains name)) = true := hinv
    simpa using this
  · intro h
    rcases h with ⟨hdep, hname⟩
    refine ⟨?_, hdep⟩
    show (!(w.contains name)) = true
    simpa using hname

/-- C2: for every binary node, if the children's dependence sets are equal
the result is that common set with invariant true; if exactly one child's
dependence set is empty the result is the other child's set with invariant
true; in all three cases nothing is recorded into the grouping map beyond
what the children recorded; and a Par node yields exactly the same result as
its child. -/
theorem C2_binop_par_rules (w : List String) (op : String) (l r e : Expr) :
    ((ecRes w l).1 = (ecRes w r).1 →
      ecRes w (.binop op l r) = ((ecRes w l).1, true) ∧
      ecNew w (.binop op l r) = ecNew w l ++ ecNew w r) ∧
    ((ecRes w l).1 = [] → (ecRes w r).1 ≠ [] →
      ecRes w (.binop op l r) = ((ecRes w r).1, true) ∧
      ecNew w (.binop op l r) = ecNew w l ++ ecNew w r) ∧
    ((ecRes w r).1 = [] → (ecRes w l).1 ≠ [] →
      ecRes w (.binop op l r) = ((ecRes w l).1, true) ∧
      ecNew w (.binop op l r) = ecNew w l ++ ecNew w r) ∧
    (∀ a : List DepEntry, extract_const w (.par e) a = extract_const w e a) := by
  refine ⟨?_, ?_, ?_, fun a => rfl⟩
  · intro h1
    constructor
    · rw [ecRes_binop, if_pos h1]
    · rw [ecNew_binop, if_pos (Or.inl h1)]
      simp
  · intro h2 h3
    have h1 : (ecRes w l).1 ≠ (ecRes w r).1 := by
      rw [h2]
      exact fun hx => h3 hx.symm
    constructor
    · rw [ecRes_binop, if_neg h1, if_pos h2]
    · rw [ecNew_binop, if_pos (Or.inr (Or.inl h2))]
      simp
  · intro h3 h2
    have h1 : (ecRes w l).1 ≠ (ecRes w r).1 := by
      rw [h3]
      exact h2
    constructor
    · rw [ecRes_binop, if_neg h1, if_neg h2, if_pos h3]
    · rw [ecNew_binop, if_pos (Or.inr (Or.inr h3))]
      simp

/-- C2, witness: the three binary rules instantiated on `B[i]*C[i]` and on
products with a scalar constant, and Par transparency on `D[j]`. -/
theorem C2_witness :
    (ecRes ["A"] (.binop "*" exB exC) = (["i"], true) ∧
      ecNew ["A"] (.binop "*" exB exC) = []) ∧
    (ecRes ["A"] (.binop "*" (.sym "c" [] []) exD) = (["j"], true) ∧
      ecNew ["A"] (.binop "*" (.sym "c" [] []) exD) = []) ∧
    (ecRes ["A"] (.binop "*" exD (.sym "c" [] [])) = (["j"], true) ∧
      ecNew ["A"] (.binop "*" exD (.sym "c" [] [])) = []) ∧
    (∀ a : List DepEntry, extract_const ["A"] (.par exD) a = extract_const ["A"] exD a) :=
  ⟨(C2_binop_par_rules ["A"] "*" exB exC exD).1 rfl,
   (C2_binop_par_rules ["A"] "*" (.sym "c" [] []) exD exD).2.1 rfl (by decide),
   (C2_binop_par_rules ["A"] "*" exD (.sym "c" [] []) exD).2.2.1 rfl (by decide),
   (C2_binop_par_rules ["A"] "*" exD (.sym "c" [] []) exD).2.2.2⟩

/-- C3: for every binary node whose children's dependence sets differ and are
both non-empty, the result is the empty dependence set with invariant false,
and the grouping map receives exactly the children that were reported
invariant and are not bare Symbols, each keyed by its own dependence set;
moreover no entry of the grouping map, for any expression, is a bare
Symbol. -/
theorem C3_mixed_deps_recording (w : List String) (op : String) (l r : Expr)
    (h1 : (ecRes w l).1 ≠ (ecRes w r).1) (h2 : (ecRes w l).1 ≠ []) (h3 : (ecRes w r).1 ≠ []) :
    ecRes w (.binop op l r) = ([], false) ∧
    ecNew w (.binop op l r) = ecNew w l ++ ecNew w r ++
      ((if (ecRes w l).2 && !(isSymB l) then [((ecRes w l).1, l)] else []) ++
       (if (ecRes w r).2 && !(isSymB r) then [((ecRes w r).1, r)] else [])) ∧
    (∀ (w2 : List String) (e : Expr) (p : DepEntry), p ∈ ecNew w2 e → isSymB p.2 = false) := by
  refine ⟨?_, ?_, ecNew_no_bare_symbol⟩
  · rw [ecRes_binop, if_neg h1, if_neg h2, if_neg h3]
  · rw [ecNew_binop, if_neg (by simp [h1, h2, h3])]

/-- C3, witness: the worked example product `(B[i]*C[i])` against `D[j]`:
dependence sets `(i,)` and `(j,)` differ and are non-empty; the Par-wrapped
product is recorded, the bare Symbol `D` is not. -/
theorem C3_witness :
    ecRes ["A"] (.binop "+" exHoisted exD) = ([], false) ∧
    ecNew ["A"] (.binop "+" exHoisted exD) = ecNew ["A"] exHoisted ++ ecNew ["A"] exD ++
      ((if (ecRes ["A"] exHoisted).2 && !(isSymB exHoisted) then [((ecRes ["A"] exHoisted).1, exHoisted)] else []) ++
       (if (ecRes ["A"] exD).2 && !(isSymB exD) then [((ecRes ["A"] exD).1, exD)] else [])) ∧
    (∀ (w2 : List String) (e : Expr) (p : DepEntry), p ∈ ecNew w2 e → isSymB p.2 = false) :=
  C3_mixed_deps_recording ["A"] "+" exHoisted exD (by decide) (by decide) (by decide)

/-- C9: every dependence-set key recorded into the grouping map is non-empty,
so the hoister's access to its last element (`dep[-1]`) never indexes an
empty tuple. -/
theorem C9_depkeys_nonempty (w : List String) (e : Expr) (p : DepEntry)
    (hp : p ∈ ecNew w e) :
    p.1 ≠ [] ∧ p.1.getLast? ≠ none := by
  have h := ecNew_keys_ne_nil w e p hp
  refine ⟨h, ?_⟩
  intro hc
  exact h (List.getLast?_eq_none_iff.1 hc)

/-- C9, witness: the entry recorded for the worked example's right-hand side
has the non-empty key `(i,)`. -/
theorem C9_witness :
    ((["i"], exHoisted) : DepEntry) ∈ ecNew ["A"] exRhs ∧
    ((["i"], exHoisted) : DepEntry).1 ≠ [] ∧
    (((["i"], exHoisted) : DepEntry).1.getLast? ≠ none) :=
  ⟨by decide, C9_depkeys_nonempty ["A"] exRhs (["i"], exHoisted) (by decide)⟩

theorem exploreNest_ok_or_index :
    ∀ (t : Node) (fors : List Node) (blk : Option Node),
      (∃ res, exploreNest t fors blk = .ok res) ∨ exploreNest t fors blk = .error .indexError := by
  intro t fors blk
  induction t, fors, blk using exploreNest.induct with
  | case1 fors blk => right; simp [exploreNest]
  | case2 fors blk c rest ih => simpa [exploreNest] using ih
  | case3 v n fors blk => right; simp [exploreNest]
  | case4 v n fors blk c rest ih => simpa [exploreNest] using ih
  | case5 t fors blk h1 h2 =>
    left
    refine ⟨(fors, blk), ?_⟩
    cases t with
    | block cs => exact absurd rfl (h1 cs)
    | forN v n cs => exact absurd rfl (h2 v n cs)
    | declN a b => rfl
    | assignN a b => rfl
    | incrN a b => rfl
    | other a => rfl

/-- C4, failing input: on the spec's worked example nest
`A[i][j] = (B[i]*C[i]) + D[j]`, `licm` builds (and prints) the correct
`inv_block` for the hoisted product, but returns the statement list unchanged:
`replace_const` is `pass` and the splice step is only a comment, so no
hoisted loop is spliced into the nest and the original statement is not
rewritten to use the temporary `LI_i_0`. -/
theorem C4_no_splice_no_subst :
    licm exFors [exStmt] (some exDecl) = .ok ([exStmt], [exInvBlock]) ∧
    exRhs ≠ .binop "+" (.sym "LI_i_0" [.var "i"] ["i"]) exD :=
  ⟨rfl, by decide⟩

/-- C6, counterexample: the For node with two children — not a perfect nest —
is explored without any error (its first child only), so the Explorer does
not fail with `MalformedNestError` on a malformed tree. -/
theorem C6_counterexample :
    constructOptimiser [] c6Tree = .ok ([c6Tree], some (.block [.other "s1"])) ∧
    constructOptimiser [] c6Tree ≠ .error .malformedNest := by
  refine ⟨rfl, ?_⟩
  intro h
  rw [show constructOptimiser [] c6Tree
      = Except.ok ([c6Tree], some (.block [.other "s1"])) from rfl] at h
  exact Except.noConfusion h

/-- C6, amended: the Explorer never raises `MalformedNestError`: a
non-For/non-Block node ends the walk, returning the For nodes collected so
far; a For with more than one child is explored through its first child only;
a For or Block with no children fails with an IndexError. -/
theorem C6_explorer_behaviour :
    (∀ (t : Node) (fors : List Node) (blk : Option Node),
      exploreNest t fors blk ≠ .error .malformedNest) ∧
    (∀ (v : String) (n : Nat) (c : Node) (cs : List Node) (fors : List Node) (blk : Option Node),
      exploreNest (.forN v n (c :: cs)) fors blk
        = exploreNest c (fors ++ [.forN v n (c :: cs)]) blk) ∧
    (∀ (v : String) (n : Nat) (fors : List Node) (blk : Option Node),
      exploreNest (.forN v n []) fors blk = .error .indexError) ∧
    (∀ (fors : List Node) (blk : Option Node),
      exploreNest (.block []) fors blk = .error .indexError) ∧
    (∀ (t : Node) (fors : List Node) (blk : Option Node),
      isBlockOrFor t = false → exploreNest t fors blk = .ok (fors, blk)) := by
  refine ⟨?_, fun v n c cs fors blk => rfl, fun v n fors blk => rfl, fun fors blk => rfl, ?_⟩
  · intro t fors blk h
    rcases exploreNest_ok_or_index t fors blk with ⟨res, hres⟩ | hres
    · rw [hres] at h
      exact Except.noConfusion h
    · rw [hres] at h
      have := Except.error.inj h
      exact Err.noConfusion this
  · intro t fors blk h
    cases t with
    | block cs => simp [isBlockOrFor] at h
    | forN v n cs => simp [isBlockOrFor] at h
    | declN a b => rfl
    | assignN a b => rfl
    | incrN a b => rfl
    | other a => rfl

/-- C6, witness for the amended theorem: the walk on the statement node of
the worked example terminates immediately, returning the collected loops. -/
theorem C6_witness :
    isBlockOrFor exStmt = false ∧ exploreNest exStmt [exI] (some (.block [exJ])) = .ok ([exI], some (.block [exJ])) :=
  ⟨rfl, (C6_explorer_behaviour).2.2.2.2 exStmt [exI] (some (.block [exJ])) rfl⟩

/-- C7, failing input: the `fors` default argument of
`_explore_perfect_nest` is one shared mutable list, so constructing a
`LoopOptimiser` on a second nest after one was constructed on a first nest
yields `fors` containing the first nest's loop followed by the second's,
which differs from the `fors` produced by a fresh construction on the second
nest alone. -/
theorem C7_shared_default_fors :
    constructOptimiser [] c7Nest2 = .ok ([c7Nest2], some (.block [.other "s2"])) ∧
    constructOptimiser [] c7Nest1 = .ok ([c7Nest1], some (.block [.other "s1"])) ∧
    constructOptimiser [c7Nest1] c7Nest2 = .ok ([c7Nest1, c7Nest2], some (.block [.other "s2"])) ∧
    ([c7Nest1, c7Nest2] : List Node) ≠ [c7Nest2] := by
  refine ⟨rfl, rfl, rfl, ?_⟩
  intro h
  simpa using congrArg List.length h

theorem execLoop_split {α : Type} (f : Nat → α → α) (a b : Nat) (s : α) :
    execLoop f 0 (a + b) s = execLoop f a b (execLoop f 0 a s) := by
  simp [execLoop, List.range_add a b, List.foldl_append, List.foldl_map]

/-- C8: peeling a loop of statically known trip count `N` for vector width
`W` yields a main loop of trip count `N / W * W` and, exactly when
`N % W ≠ 0`, a remainder loop of trip count `N % W` run after it; together
they compute the same final state as the original single loop of trip count
`N`, and their index ranges partition the original range `0..N`. -/
theorem C8_peeling {α : Type} (f : Nat → α → α) (N W : Nat) (s : α) :
    execPeeled f N W s = execLoop f 0 N s ∧
    N / W * W + N % W = N ∧
    List.range (N / W * W) ++ (List.range (N % W)).map (fun k => N / W * W + k)
      = List.range N := by
  have hNW : N / W * W + N % W = N := by
    rw [Nat.mul_comm]
    exact Nat.div_add_mod N W
  refine ⟨?_, hNW, ?_⟩
  · show (if N % W ≠ 0 then execLoop f (N / W * W) (N % W) (execLoop f 0 (N / W * W) s)
        else execLoop f 0 (N / W * W) s) = execLoop f 0 N s
    by_cases h : N % W = 0
    · rw [if_neg (by simpa using h)]
      rw [Nat.div_mul_cancel (Nat.dvd_of_mod_eq_zero h)]
    · rw [if_pos h]
      conv_rhs => rw [← hNW]
      rw [execLoop_split]
  · conv_rhs => rw [← hNW]
    rw [List.range_add]

theorem licmStmt_write_no_decl (fors : List Node) (written : List String) (s : Node)
    (hw : isWriteB s = true) :
    licmStmt fors written none s = .error .nameError := by
  cases s with
  | assignN lhs rhs => rfl
  | incrN lhs rhs => rfl
  | block cs => simp [isWriteB] at hw
  | forN v n cs => simp [isWriteB] at hw
  | declN t e => simp [isWriteB] at hw
  | other t => simp [isWriteB] at hw

theorem licmStmt_nonwrite (fors : List Node) (written : List String)
    (decl? : Option (String → List String)) (s : Node) (hw : isWriteB s = false) :
    licmStmt fors written decl? s = .ok [] := by
  cases s with
  | assignN lhs rhs => simp [isWriteB] at hw
  | incrN lhs rhs => simp [isWriteB] at hw
  | block cs => rfl
  | forN v n cs => rfl
  | declN t e => rfl
  | other t => rfl

theorem licm_fold_no_decl (fors : List Node) (written : List String) :
    ∀ (stmts : List Node) (acc : List Node), (∃ s ∈ stmts, isWriteB s = true) →
      stmts.foldlM (fun acc s => do
        let ps ← licmStmt fors written none s
        pure (acc ++ ps)) acc = .error .nameError := by
  intro stmts
  induction stmts with
  | nil =>
    intro acc h
    rcases h with ⟨s, hs, _⟩
    cases hs
  | cons s ss ih =>
    intro acc h
    rw [List.foldlM_cons]
    cases hw : isWriteB s
    · rw [licmStmt_nonwrite fors written none s hw]
      show ss.foldlM _ (acc ++ []) = _
      rcases h with ⟨t, ht, hwt⟩
      rcases List.mem_cons.1 ht with rfl | ht2
      · rw [hw] at hwt
        cases hwt
      · exact ih (acc ++ []) ⟨t, ht2, hwt⟩
    · rw [licmStmt_write_no_decl fors written s hw]
      rfl

/-- C10: on any block that contains at least one Assign or Incr statement
(and whose write targets are Symbols, so that the earlier `written_vars`
computation succeeds), `licm` hits the expression
`decl[s.children[0].symbol][0]` with the name `decl` bound nowhere in the
module, so it fails with a NameError before any hoist group is built —
unless the star-import of `ast_base` supplies a global `decl`, modelled here
as the `some` case of the optional external table. -/
theorem C10_unbound_decl (fors stmts : List Node) (w : List String)
    (hw : writtenVars stmts = .ok w) (hex : ∃ s ∈ stmts, isWriteB s = true) :
    licm fors stmts none = .error .nameError := by
  show (writtenVars stmts >>= fun written =>
    (stmts.foldlM (fun acc s => do
      let ps ← licmStmt fors written none s
      pure (acc ++ ps)) ([] : List Node)) >>= fun printed =>
    pure (stmts, printed)) = .error .nameError
  rw [hw]
  show ((stmts.foldlM (fun acc s => do
      let ps ← licmStmt fors w none s
      pure (acc ++ ps)) ([] : List Node)) >>= fun printed => pure (stmts, printed))
    = .error .nameError
  rw [licm_fold_no_decl fors w stmts [] hex]
  rfl

/-- C10, witness: the worked example nest contains an Assign, so `licm`
without an external `decl` binding fails with a NameError. -/
theorem C10_witness :
    writtenVars [exStmt] = .ok ["A"] ∧ isWriteB exStmt = true ∧
    licm exFors [exStmt] none = .error .nameError :=
  ⟨rfl, rfl, C10_unbound_decl exFors [exStmt] ["A"] rfl ⟨exStmt, by simp, rfl⟩⟩

theorem exbind_ok {α β : Type} (a : α) (f : α → Except Err β) :
    (Except.ok a >>= f) = f a := rfl

theorem wrapChain_foldr (wl : List Node) (cs : List Node) :
    wrapChain (wl.foldr (fun l b => Node.forN (itVar l) (sizeN l) [b]) (.block cs))
      = wl.map (fun l => (itVar l, sizeN l)) := by
  induction wl with
  | nil => rfl
  | cons l ls ih => simp [wrapChain, ih]

theorem chainInner_foldr (wl : List Node) (cs : List Node) :
    chainInner (wl.foldr (fun l b => Node.forN (itVar l) (sizeN l) [b]) (.block cs))
      = .block cs := by
  induction wl with
  | nil => rfl
  | cons l ls ih => simp [chainInner, ih]

theorem filterMap_const_none {A B : Type} (l : List A) :
    (l.filterMap fun _ => (none : Option B)) = [] := by
  induction l with
  | nil => rfl
  | cons a as ih => simp [List.filterMap_cons, ih]

theorem filterMap_const_some {A B : Type} (f : A → B) (l : List A) :
    (l.filterMap fun a => some (f a)) = l.map f := by
  induction l with
  | nil => rfl
  | cons a as ih => simp [List.filterMap_cons, ih]

theorem buildHoist_nopre (fors : List Node) (dep : List String) (exprs : List Expr)
    (typ : String) (dv : String) (fast ndep wlast : Node)
    (hdv : dep.getLast? = some dv)
    (hfast : findFirst (fun l => itVar l == dv) fors = .ok fast)
    (hndep : findFirst (fun l => !(dep.contains (itVar l))) fors = .ok ndep)
    (hpre : preScan (itVar fast) (itVar ndep) fors none = none)
    (hlast : (fors.filter (fun l => dep.contains (itVar l))).getLast? = some wlast) :
    buildHoist fors dep exprs typ = Except.ok (
      let wl := fors.filter (fun l => dep.contains (itVar l))
      let symRank := wl.map (fun l => RankItem.num (sizeN l))
      let syms := (List.range exprs.length).map
        (fun i => mkSym ("LI_" ++ itVar wlast ++ "_" ++ toString i) symRank)
      let varDecl := syms.map (fun s => Node.declN typ s)
      let forRank := wl.map (fun l => RankItem.var (itVar l))
      let forSym := varDecl.map (fun d => mkSym (declSymName d) forRank)
      let forAss := (forSym.zip exprs).map (fun p => Node.assignN p.1 p.2)
      Node.block (varDecl ++
        [wl.foldr (fun l b => Node.forN (itVar l) (sizeN l) [b]) (.block forAss)])) := by
  simp only [buildHoist, hdv, exbind_ok, hfast, hndep, hpre, hlast]
  rfl

/-- C5: for a hoist group with dependence set `dep` whose placement scan finds
no pre-placement loop, the built `inv_block` wraps the hoisted assignments
with exactly the nest loops whose iteration variables are in `dep` (outermost
to innermost), declares one temporary per expression whose rank is the tuple
of the wrapping loops' extents and whose name combines the innermost wrapping
loop's variable with the group-local index, and assigns each expression to
its temporary subscripted by the wrapping loop variables. -/
theorem C5_fallback_wrapping (fors : List Node) (dep : List String) (exprs : List Expr)
    (typ : String) (dv : String) (fast ndep wlast : Node)
    (hdv : dep.getLast? = some dv)
    (hfast : findFirst (fun l => itVar l == dv) fors = .ok fast)
    (hndep : findFirst (fun l => !(dep.contains (itVar l))) fors = .ok ndep)
    (hpre : preScan (itVar fast) (itVar ndep) fors none = none)
    (hlast : (fors.filter (fun l => dep.contains (itVar l))).getLast? = some wlast) :
    ∃ hb, buildHoist fors dep exprs typ = .ok hb ∧
      blockLastWrap hb
        = (fors.filter (fun l => dep.contains (itVar l))).map (fun l => (itVar l, sizeN l)) ∧
      blockDecls hb = (List.range exprs.length).map (fun i =>
        (typ, Expr.sym ("LI_" ++ itVar wlast ++ "_" ++ toString i)
          ((fors.filter (fun l => dep.contains (itVar l))).map (fun l => RankItem.num (sizeN l)))
          [])) ∧
      blockLastInner hb = Node.block
        ((((List.range exprs.length).map (fun i =>
            Expr.sym ("LI_" ++ itVar wlast ++ "_" ++ toString i)
              ((fors.filter (fun l => dep.contains (itVar l))).map
                (fun l => RankItem.var (itVar l)))
              ((fors.filter (fun l => dep.contains (itVar l))).map
                (fun l => itVar l)))).zip exprs).map
          (fun p => Node.assignN p.1 p.2)) := by
  rw [buildHoist_nopre fors dep exprs typ dv fast ndep wlast hdv hfast hndep hpre hlast]
  set wl := fors.filter (fun l => dep.contains (itVar l)) with hwl
  have hne : wl ≠ [] := by
    intro h
    rw [h] at hlast
    cases hlast
  refine ⟨_, rfl, ?_, ?_, ?_⟩
  · show blockLastWrap (Node.block _) = _
    simp only [blockLastWrap, List.getLast?_concat]
    exact wrapChain_foldr wl _
  · show blockDecls (Node.block _) = _
    simp only [blockDecls, List.filterMap_append]
    rcases List.exists_cons_of_ne_nil hne with ⟨l0, ls, hcons⟩
    rw [hcons]
    simp [mkSym, declSymName, List.filterMap_map, Function.comp_def, filterMap_const_none,
          filterMap_const_some]
  · show blockLastInner (Node.block _) = _
    simp only [blockLastInner, List.getLast?_concat]
    rw [chainInner_foldr]
    simp [mkSym, declSymName, List.filterMap_map, List.map_map, Function.comp_def,
          filterMap_const_none, filterMap_const_some]

/-- C5, witness: the worked example's group (dependence set `(i,)`, hoisted
expression `(B[i]*C[i])`) is wrapped by loop `i` alone, declaring
`LI_i_0` of rank `(10,)` and assigning the product to `LI_i_0[i]`. -/
theorem C5_witness :
    buildHoist exFors ["i"] [exHoisted] "double" = .ok exInvBlock ∧
    blockLastWrap exInvBlock = [("i", 10)] ∧
    blockDecls exInvBlock = [("double", Expr.sym "LI_i_0" [.num 10] [])] ∧
    blockLastInner exInvBlock
      = Node.block [.assignN (.sym "LI_i_0" [.var "i"] ["i"]) exHoisted] := by
  obtain ⟨hb, h1, h2, h3, h4⟩ :=
    C5_fallback_wrapping exFors ["i"] [exHoisted] "double" "i" exI exJ exI rfl rfl rfl rfl rfl
  have h0 : buildHoist exFors ["i"] [exHoisted] "double" = .ok exInvBlock := rfl
  rw [h0] at h1
  have e : hb = exInvBlock := (Except.ok.inj h1).symm
  subst e
  exact ⟨h0, h2, h3, h4⟩
